import Mathlib

/-!
# Verification of the can-haz-password core

Shallow embedding of `rand/weighted.go` and `password/generator.go`.

Modelling conventions:
* Go `float64` weights are modelled by exact rationals (`ℚ`); the weights in
  play are ratios of small integers, for which `float64` arithmetic and exact
  rational arithmetic branch identically in every situation the theorems
  below touch (in particular Go's `0.0/0.0 = NaN` and Lean's `0/0 = 0` both
  fail the `probability > 0` test).
* Go `int` is modelled by `ℤ`.  Go `int(float64(l) * 1.5)` truncates toward
  zero and `float64` represents `l` and `1.5*l` exactly for `|l| < 2^52`, so
  it is modelled by `Int.tdiv (3 * l) 2`.
* The cryptographic random draw is abstracted: `WeightedRandomSet.Next` takes
  the already scaled draw `x = u * totalWeight` as an explicit argument, and
  the generator loop takes the stream of characters produced by the weighted
  source as a function `ℕ → Char`, plus explicit fuel (the Go loop has no
  a-priori iteration bound for adversarial rules).
* A Go runtime fault (indexing an empty slice) is modelled by `Option.none`.
-/

namespace CanHazPassword

/-! ## rand/weighted.go -/

/-- `WeightedRandomEntry` from `rand/weighted.go`: an entry in the weighted
random set, a character together with its (float64, here `ℚ`) weight. -/
structure WeightedRandomEntry where
  Character : Char
  Weight : ℚ
deriving DecidableEq, Inhabited

/-- `WeightedRandomSet` from `rand/weighted.go`.  The interval tree is
modelled by the list of its intervals `[min, max)` in insertion order
(`rand/weighted.go` documents the intervals as `total <= x < total +
entry_weight`); `characters` and `totalWeight` are as in the Go struct.  The
random source is not stored: `Next` receives the scaled draw directly. -/
structure WeightedRandomSet where
  intervals : List (ℚ × ℚ)
  characters : List Char
  totalWeight : ℚ
deriving DecidableEq

/-- The cumulative ranges built by the loop in `NewWeightedRandomSet`:
`ranges[i] = (t_i, t_i + w_i)` where `t_i` is the running total of the
weights before entry `i`, starting from `t`. -/
def rangesFrom : List WeightedRandomEntry → ℚ → List (ℚ × ℚ)
  | [], _ => []
  | e :: es, t => (t, t + e.Weight) :: rangesFrom es (t + e.Weight)

/-- `NewWeightedRandomSet` from `rand/weighted.go`: accumulate the entry
weights into adjacent intervals (here via `rangesFrom` starting at `0`),
record each entry's character, and the running total of the weights. -/
def NewWeightedRandomSet (entries : List WeightedRandomEntry) : WeightedRandomSet where
  intervals := rangesFrom entries 0
  characters := entries.map (·.Character)
  totalWeight := entries.foldl (fun t e => t + e.Weight) 0

/-- Containment of a point in one of the half-open intervals
`min <= x < max` of the tree (the `interval` type of `rand/weighted.go`). -/
def intervalContains (iv : ℚ × ℚ) (x : ℚ) : Prop :=
  iv.1 ≤ x ∧ x < iv.2

instance (iv : ℚ × ℚ) (x : ℚ) : Decidable (intervalContains iv x) := by
  unfold intervalContains; infer_instance

/-- The interval tree query `tree.Including(x)`, carrying the index of the
first interval of the scan: returns the indices of every stored interval
containing `x`, in order.  (A linear scan of the disjoint intervals; the
interval tree returns the same set of indices.) -/
def includingAux : List (ℚ × ℚ) → ℚ → ℕ → List ℕ
  | [], _, _ => []
  | iv :: rest, x, i =>
    if intervalContains iv x then i :: includingAux rest x (i + 1)
    else includingAux rest x (i + 1)

/-- `tree.Including(x)`: indices of all intervals containing `x`. -/
def Including (intervals : List (ℚ × ℚ)) (x : ℚ) : List ℕ :=
  includingAux intervals x 0

/-- `WeightedRandomSet.Next` from `rand/weighted.go`, as a function of the
scaled draw `x = randSource.Float64() * totalWeight`:
`index := rs.tree.Including(value)[0]; return rs.characters[index]`.
Indexing `[0]` into an empty query result (and likewise an out-of-range
`characters` index) is a Go runtime fault, modelled by `none`. -/
def WeightedRandomSet.Next (rs : WeightedRandomSet) (x : ℚ) : Option Char :=
  match Including rs.intervals x with
  | [] => none
  | i :: _ => rs.characters[i]?

/-! ## password/generator.go : data model -/

/-- `CharacterClassConfiguration` from `password/generator.go`. -/
structure CharacterClassConfiguration where
  Characters : List Char
  Minimum : ℤ
deriving DecidableEq

/-- `Configuration` from `password/generator.go`. -/
structure Configuration where
  Length : ℤ
  CharacterClasses : List CharacterClassConfiguration
deriving DecidableEq

/-- The `Rule` interface from `password/generator.go`: a configuration and a
validity predicate.  (`Config()` is modelled as returning a fixed
configuration; every theorem below is about the configuration read at the
start of the call, as in the Go code.) -/
structure Rule where
  Config : Configuration
  Valid : List Char → Bool

/-- `Generator` from `password/generator.go`. -/
structure Generator where
  characterSource : WeightedRandomSet
  passwordRule : Rule

/-! ## password/generator.go : character-source construction -/

/-- `occurrencesOfCharacters` from `password/generator.go`: build a frequency
map of the password, then for each character of the class string (with
multiplicity!) add its frequency.  The Go frequency map `freq[c]` is modelled
by `password.count c`. -/
def occurrencesOfCharacters (password characterClass : List Char) : ℕ :=
  (characterClass.map fun c => password.count c).sum

/-- `Generator.complete` from `password/generator.go`: the password is
complete when its length reaches `config.Length` and every character class
occurs at least `Minimum` times. -/
def complete (config : Configuration) (password : List Char) : Bool :=
  if (password.length : ℤ) < config.Length then
    false
  else
    config.CharacterClasses.all fun characterClass =>
      decide (characterClass.Minimum ≤
        (occurrencesOfCharacters password characterClass.Characters : ℤ))

/-- `addCharactersToWeightedRandomSet` from `password/generator.go`: skip the
class when its probability is not positive, otherwise append one entry per
character of the class string, each with weight
`probability / len(characterClass)`. -/
def addCharactersToWeightedRandomSet (entries : List WeightedRandomEntry)
    (characterClass : List Char) (probability : ℚ) : List WeightedRandomEntry :=
  if 0 < probability then
    entries ++ characterClass.map fun v =>
      ⟨v, probability / (characterClass.length : ℚ)⟩
  else entries

/-- The `totalCount` accumulation at the top of `buildCharacterSource`: the
sum of the class minimums. -/
def totalMinimumCount (config : Configuration) : ℤ :=
  config.CharacterClasses.foldl (fun t cls => t + cls.Minimum) 0

/-- The entry-list construction loop of `buildCharacterSource` from
`password/generator.go`: for each class, probability
`Minimum / totalCount`, spread uniformly over the characters of the class. -/
def buildEntries (config : Configuration) : List WeightedRandomEntry :=
  config.CharacterClasses.foldl
    (fun entries characterClass =>
      addCharactersToWeightedRandomSet entries characterClass.Characters
        ((characterClass.Minimum : ℚ) / (totalMinimumCount config : ℚ)))
    []

/-- `buildCharacterSource` from `password/generator.go`. -/
def buildCharacterSource (config : Configuration) : WeightedRandomSet :=
  NewWeightedRandomSet (buildEntries config)

/-- `NewGenerator` from `password/generator.go`. -/
def NewGenerator (passwordRule : Rule) : Generator :=
  ⟨buildCharacterSource passwordRule.Config, passwordRule⟩

/-! ## password/generator.go : the Generate loop -/

/-- `maxInvalidPasswordRejections` from `Generator.Generate`. -/
def maxInvalidPasswordRejections : ℕ := 10

/-- Model of Go `int(float64(l) * 1.5)` (exact for `|l| < 2^52`):
multiplication by `1.5` followed by truncation toward zero. -/
def maxPasswordLength (l : ℤ) : ℤ :=
  Int.tdiv (3 * l) 2

/-- Result of `Generator.Generate`: either a password (Go
`(string(password), nil)`) or `ErrInvalidPasswordRejection` (Go
`("", ErrInvalidPasswordRejection)`). -/
inductive GenResult where
  | ok (password : List Char)
  | err
deriving DecidableEq

/-- Outcome of one pass through the `Generate` loop: either the call returns
`result`, or the loop continues with a new candidate and rejection count. -/
inductive StepOut where
  | ret (result : GenResult)
  | cont (password : List Char) (rejections : ℕ)
deriving DecidableEq

/-- One iteration of the loop in `Generator.Generate`, given the character
`c` that `characterSource.Next()` would produce: check the loop condition
`rejections < 10`, return the candidate if complete, tentatively append `c`,
roll back and count a rejection if the rule rejects, restart from the empty
candidate when the length bound is exceeded. -/
def generateStep (rule : Rule) (config : Configuration) (c : Char)
    (password : List Char) (rejections : ℕ) : StepOut :=
  if rejections < maxInvalidPasswordRejections then
    if complete config password then StepOut.ret (GenResult.ok password)
    else
      let appended := password ++ [c]
      if rule.Valid appended = false then
        StepOut.cont password (rejections + 1)
      else if maxPasswordLength config.Length < (appended.length : ℤ) then
        StepOut.cont [] rejections
      else
        StepOut.cont appended rejections
  else StepOut.ret GenResult.err

/-- The loop of `Generator.Generate`, with explicit fuel; `pos` indexes the
stream of characters drawn from the weighted source (it advances exactly when
the Go code calls `characterSource.Next()`).  `none` means the fuel ran out
before the Go loop returned. -/
def generateLoop (rule : Rule) (config : Configuration) (stream : ℕ → Char) :
    ℕ → List Char → ℕ → ℕ → Option GenResult
  | 0, _, _, _ => none
  | fuel + 1, password, rejections, pos =>
    match generateStep rule config (stream pos) password rejections with
    | StepOut.ret r => some r
    | StepOut.cont password' rejections' =>
      generateLoop rule config stream fuel password' rejections' (pos + 1)

/-- `Generator.Generate` from `password/generator.go`: read the
configuration, start from the empty candidate with zero rejections. -/
def Generate (rule : Rule) (stream : ℕ → Char) (fuel : ℕ) : Option GenResult :=
  generateLoop rule rule.Config stream fuel [] 0 0

/-- `generateLoop` instrumented with the final value of the rejection
counter: identical control flow, additionally reporting the counter at the
moment the loop returns. -/
def generateLoopR (rule : Rule) (config : Configuration) (stream : ℕ → Char) :
    ℕ → List Char → ℕ → ℕ → Option (GenResult × ℕ)
  | 0, _, _, _ => none
  | fuel + 1, password, rejections, pos =>
    match generateStep rule config (stream pos) password rejections with
    | StepOut.ret r => some (r, rejections)
    | StepOut.cont password' rejections' =>
      generateLoopR rule config stream fuel password' rejections' (pos + 1)

/-- `Generate` instrumented with the final rejection counter. -/
def GenerateR (rule : Rule) (stream : ℕ → Char) (fuel : ℕ) :
    Option (GenResult × ℕ) :=
  generateLoopR rule rule.Config stream fuel [] 0 0

/-! ## Helper lemmas about the Generate loop -/

/-- Unfolding of `complete`: the password is long enough and every character
class reaches its minimum. -/
theorem complete_eq_true_iff (config : Configuration) (password : List Char) :
    complete config password = true ↔
      (config.Length ≤ (password.length : ℤ) ∧
        ∀ cls ∈ config.CharacterClasses,
          cls.Minimum ≤ (occurrencesOfCharacters password cls.Characters : ℤ)) := by
  unfold complete
  split_ifs with h
  · simp only [Bool.false_eq_true, false_iff, not_and]
    intro h'
    omega
  · simp only [List.all_eq_true, decide_eq_true_eq]
    constructor
    · intro hall
      exact ⟨by omega, hall⟩
    · intro hall
      exact hall.2

/-- A step that returns a password does so exactly when the loop condition
holds and the current candidate is complete. -/
theorem generateStep_ret_ok {rule : Rule} {config : Configuration} {c : Char}
    {password : List Char} {rejections : ℕ} {out : List Char}
    (h : generateStep rule config c password rejections =
      StepOut.ret (GenResult.ok out)) :
    out = password ∧ complete config password = true ∧
      rejections < maxInvalidPasswordRejections := by
  simp only [generateStep] at h
  split_ifs at h <;> simp_all

/-- A step that returns the rejection error does so exactly when the loop
condition `rejections < 10` has failed. -/
theorem generateStep_ret_err {rule : Rule} {config : Configuration} {c : Char}
    {password : List Char} {rejections : ℕ}
    (h : generateStep rule config c password rejections =
      StepOut.ret GenResult.err) :
    maxInvalidPasswordRejections ≤ rejections := by
  simp only [generateStep] at h
  split_ifs at h with h1 h2 h3 h4 <;> first | omega | simp_all

/-- Case analysis of a continuing step: a rollback after a rejection, a
restart after a length overflow, or an accepted append. -/
theorem generateStep_cont {rule : Rule} {config : Configuration} {c : Char}
    {password : List Char} {rejections : ℕ} {pw' : List Char} {r' : ℕ}
    (h : generateStep rule config c password rejections =
      StepOut.cont pw' r') :
    rejections < maxInvalidPasswordRejections ∧
      complete config password = false ∧
      ((pw' = password ∧ r' = rejections + 1 ∧
          rule.Valid (password ++ [c]) = false) ∨
        (pw' = [] ∧ r' = rejections) ∨
        (pw' = password ++ [c] ∧ r' = rejections ∧
          (pw'.length : ℤ) ≤ maxPasswordLength config.Length)) := by
  simp only [generateStep] at h
  split_ifs at h with h1 h2 h3 h4
  · simp only [StepOut.cont.injEq] at h
    obtain ⟨rfl, rfl⟩ := h
    exact ⟨h1, by simpa using h2, Or.inl ⟨rfl, rfl, h3⟩⟩
  · simp only [StepOut.cont.injEq] at h
    obtain ⟨rfl, rfl⟩ := h
    exact ⟨h1, by simpa using h2, Or.inr (Or.inl ⟨rfl, rfl⟩)⟩
  · simp only [StepOut.cont.injEq] at h
    obtain ⟨rfl, rfl⟩ := h
    exact ⟨h1, by simpa using h2, Or.inr (Or.inr ⟨rfl, rfl, by omega⟩)⟩

/-- Any password returned by the loop is complete for the configuration the
loop was started with. -/
theorem generateLoop_ok_complete (rule : Rule) (config : Configuration)
    (stream : ℕ → Char) :
    ∀ (fuel : ℕ) (password : List Char) (rejections pos : ℕ)
      (out : List Char),
      generateLoop rule config stream fuel password rejections pos =
        some (GenResult.ok out) →
      complete config out = true := by
  intro fuel
  induction fuel with
  | zero => intro pw r pos out h; simp [generateLoop] at h
  | succ n ih =>
    intro pw r pos out h
    rw [generateLoop] at h
    cases hs : generateStep rule config (stream pos) pw r with
    | ret res =>
      rw [hs] at h
      obtain rfl : res = GenResult.ok out := by simpa using h
      obtain ⟨rfl, hc, -⟩ := generateStep_ret_ok hs
      exact hc
    | cont pw' r' =>
      rw [hs] at h
      exact ih pw' r' (pos + 1) out h

/-- The loop preserves the length bound `len(password) ≤ maxPasswordLength`:
a rejection keeps the candidate, a restart empties it, and an accepted append
is kept only when the bound still holds. -/
theorem generateLoop_ok_le (rule : Rule) (config : Configuration)
    (stream : ℕ → Char)
    (hmax : 0 ≤ maxPasswordLength config.Length) :
    ∀ (fuel : ℕ) (password : List Char) (rejections pos : ℕ)
      (out : List Char),
      (password.length : ℤ) ≤ maxPasswordLength config.Length →
      generateLoop rule config stream fuel password rejections pos =
        some (GenResult.ok out) →
      (out.length : ℤ) ≤ maxPasswordLength config.Length := by
  intro fuel
  induction fuel with
  | zero => intro pw r pos out hinv h; simp [generateLoop] at h
  | succ n ih =>
    intro pw r pos out hinv h
    rw [generateLoop] at h
    cases hs : generateStep rule config (stream pos) pw r with
    | ret res =>
      rw [hs] at h
      obtain rfl : res = GenResult.ok out := by simpa using h
      obtain ⟨rfl, -, -⟩ := generateStep_ret_ok hs
      exact hinv
    | cont pw' r' =>
      rw [hs] at h
      refine ih pw' r' (pos + 1) out ?_ h
      obtain ⟨-, -, hcase⟩ := generateStep_cont hs
      rcases hcase with ⟨rfl, -, -⟩ | ⟨rfl, -⟩ | ⟨rfl, -, hle⟩
      · exact hinv
      · simpa using hmax
      · exact hle

/-- Against an always-rejecting rule, an incomplete empty candidate stays
empty and the rejection counter climbs by one per iteration, so the loop
returns the rejection error as soon as the fuel covers the remaining
iterations. -/
theorem generateLoop_alwaysFalse (rule : Rule) (config : Configuration)
    (stream : ℕ → Char) (hv : ∀ p, rule.Valid p = false)
    (hc : complete config [] = false) :
    ∀ (fuel rejections pos : ℕ),
      maxInvalidPasswordRejections - rejections < fuel →
      generateLoop rule config stream fuel [] rejections pos =
        some GenResult.err := by
  intro fuel
  induction fuel with
  | zero => intro r pos h; omega
  | succ n ih =>
    intro r pos h
    rw [generateLoop]
    by_cases hr : r < maxInvalidPasswordRejections
    · have hs : generateStep rule config (stream pos) [] r =
          StepOut.cont [] (r + 1) := by
        simp [generateStep, hr, hc, hv]
      rw [hs]
      exact ih (r + 1) (pos + 1) (by omega)
    · have hs : generateStep rule config (stream pos) [] r =
          StepOut.ret GenResult.err := by
        simp [generateStep, hr]
      rw [hs]

/-- The plain loop is the first projection of the instrumented loop. -/
theorem generateLoop_eq_generateLoopR (rule : Rule) (config : Configuration)
    (stream : ℕ → Char) :
    ∀ (fuel : ℕ) (password : List Char) (rejections pos : ℕ),
      generateLoop rule config stream fuel password rejections pos =
        (generateLoopR rule config stream fuel password rejections pos).map
          Prod.fst := by
  intro fuel
  induction fuel with
  | zero => intro pw r pos; simp [generateLoop, generateLoopR]
  | succ n ih =>
    intro pw r pos
    rw [generateLoop, generateLoopR]
    cases hs : generateStep rule config (stream pos) pw r with
    | ret res => simp
    | cont pw' r' => simpa using ih pw' r' (pos + 1)

/-- The instrumented loop returns the rejection error exactly when the final
rejection counter equals the ceiling. -/
theorem generateLoopR_err_iff (rule : Rule) (config : Configuration)
    (stream : ℕ → Char) :
    ∀ (fuel : ℕ) (password : List Char) (rejections pos : ℕ)
      (res : GenResult) (rfinal : ℕ),
      rejections ≤ maxInvalidPasswordRejections →
      generateLoopR rule config stream fuel password rejections pos =
        some (res, rfinal) →
      (res = GenResult.err ↔ rfinal = maxInvalidPasswordRejections) := by
  intro fuel
  induction fuel with
  | zero => intro pw r pos res rf hr h; simp [generateLoopR] at h
  | succ n ih =>
    intro pw r pos res rf hr h
    rw [generateLoopR] at h
    cases hs : generateStep rule config (stream pos) pw r with
    | ret res' =>
      rw [hs] at h
      simp only [Option.some.injEq, Prod.mk.injEq] at h
      obtain ⟨rfl, rfl⟩ := h
      cases res' with
      | ok pw'' =>
        obtain ⟨-, -, hlt⟩ := generateStep_ret_ok hs
        exact iff_of_false (by simp) (by omega)
      | err =>
        have hge := generateStep_ret_err hs
        exact iff_of_true rfl (by omega)
    | cont pw' r' =>
      rw [hs] at h
      obtain ⟨hlt, -, hcase⟩ := generateStep_cont hs
      have hr' : r' ≤ maxInvalidPasswordRejections := by
        rcases hcase with ⟨-, rfl, -⟩ | ⟨-, rfl⟩ | ⟨-, rfl, -⟩ <;> omega
      exact ih pw' r' (pos + 1) res rf hr' h

/-! ## Claim C1 -/

/-- C1: every password returned successfully by `Generate` satisfies the
completion condition read from the rule's configuration at the start of the
call: its length is at least `config.Length`, and for each character class
the count of password characters belonging to that class (the code's
occurrence count) is at least the class's `Minimum`. -/
theorem generate_satisfies_completion (rule : Rule) (stream : ℕ → Char)
    (fuel : ℕ) (password : List Char)
    (h : Generate rule stream fuel = some (GenResult.ok password)) :
    rule.Config.Length ≤ (password.length : ℤ) ∧
      ∀ cls ∈ rule.Config.CharacterClasses,
        cls.Minimum ≤ (occurrencesOfCharacters password cls.Characters : ℤ) :=
  (complete_eq_true_iff rule.Config password).1
    (generateLoop_ok_complete rule rule.Config stream fuel [] 0 0 password h)

/-- Witness for C1 on a concrete successful run. -/
theorem generate_satisfies_completion_witness :
    (⟨2, [⟨['a'], 2⟩]⟩ : Configuration).Length ≤
        ((['a', 'a'] : List Char).length : ℤ) ∧
      ∀ cls ∈ (⟨2, [⟨['a'], 2⟩]⟩ : Configuration).CharacterClasses,
        cls.Minimum ≤
          (occurrencesOfCharacters ['a', 'a'] cls.Characters : ℤ) :=
  generate_satisfies_completion ⟨⟨2, [⟨['a'], 2⟩]⟩, fun _ => true⟩
    (fun _ => 'a') 5 ['a', 'a'] (by decide)

/-! ## Claim C2 -/

/-- C2: for a positive configured length, every password returned
successfully by `Generate` has length between `config.Length` and
`maxPasswordLength config.Length` — the model of Go
`int(float64(config.Length) * 1.5)`, i.e. `⌊1.5 * Length⌋` — because a
candidate whose length exceeds that bound after a valid append is discarded
and assembly restarts from the empty candidate. -/
theorem generate_length_bounds (rule : Rule) (stream : ℕ → Char) (fuel : ℕ)
    (password : List Char) (hL : 0 < rule.Config.Length)
    (h : Generate rule stream fuel = some (GenResult.ok password)) :
    rule.Config.Length ≤ (password.length : ℤ) ∧
      (password.length : ℤ) ≤ maxPasswordLength rule.Config.Length := by
  have hmax : 0 ≤ maxPasswordLength rule.Config.Length := by
    unfold maxPasswordLength
    exact Int.tdiv_nonneg (by omega) (by omega)
  have hc := generateLoop_ok_complete rule rule.Config stream fuel [] 0 0
    password h
  have hlen := generateLoop_ok_le rule rule.Config stream hmax fuel [] 0 0
    password (by simpa using hmax) h
  exact ⟨((complete_eq_true_iff _ _).1 hc).1, hlen⟩

/-- Witness for C2 on a concrete successful run. -/
theorem generate_length_bounds_witness :
    (0 : ℤ) < (⟨2, [⟨['a'], 2⟩]⟩ : Configuration).Length ∧
      ((⟨2, [⟨['a'], 2⟩]⟩ : Configuration).Length ≤
          ((['a', 'a'] : List Char).length : ℤ) ∧
        ((['a', 'a'] : List Char).length : ℤ) ≤
          maxPasswordLength (⟨2, [⟨['a'], 2⟩]⟩ : Configuration).Length) :=
  ⟨by decide, generate_length_bounds ⟨⟨2, [⟨['a'], 2⟩]⟩, fun _ => true⟩
    (fun _ => 'a') 5 ['a', 'a'] (by decide) (by decide)⟩

/-! ## Claim C3 -/

/-- C3 counterexample: a rule whose `Valid` always returns false but whose
configuration is already satisfied by the empty candidate (`Length = 0`, no
character classes) makes `Generate` return the empty password with no error,
so an always-rejecting rule does not always produce the rejection error. -/
theorem generate_always_invalid_counterexample :
    (∀ p, (⟨⟨0, []⟩, fun _ => false⟩ : Rule).Valid p = false) ∧
      Generate ⟨⟨0, []⟩, fun _ => false⟩ (fun _ => 'a') 1 =
        some (GenResult.ok []) ∧
      some (GenResult.ok ([] : List Char)) ≠ some GenResult.err :=
  ⟨fun _ => rfl, by decide, by decide⟩

/-- C3 (amended): (a) for every rule whose `Valid` always returns false and
whose configuration is not already satisfied by the empty candidate,
`Generate` terminates within 10 rejected appends (any fuel covering the 10
rejections plus the final loop-condition check suffices) and returns the
rejection-exhaustion error; (b) `Generate` returns the error if and only if
the cumulative count of `Valid` rejections in the call reaches the fixed
ceiling of 10, as exhibited by the instrumented loop; (c) the instrumented
loop computes exactly `Generate` plus the final counter. -/
theorem generate_rejection_ceiling :
    (∀ (rule : Rule) (stream : ℕ → Char),
      (∀ p, rule.Valid p = false) →
      complete rule.Config [] = false →
      ∀ fuel, maxInvalidPasswordRejections + 1 ≤ fuel →
        Generate rule stream fuel = some GenResult.err) ∧
      (∀ (rule : Rule) (stream : ℕ → Char) (fuel : ℕ) (res : GenResult)
          (rfinal : ℕ),
        GenerateR rule stream fuel = some (res, rfinal) →
        (res = GenResult.err ↔ rfinal = maxInvalidPasswordRejections)) ∧
      (∀ (rule : Rule) (stream : ℕ → Char) (fuel : ℕ),
        Generate rule stream fuel = (GenerateR rule stream fuel).map
          Prod.fst) := by
  refine ⟨?_, ?_, ?_⟩
  · intro rule stream hv hc fuel hf
    exact generateLoop_alwaysFalse rule rule.Config stream hv hc fuel 0 0
      (by omega)
  · intro rule stream fuel res rf h
    exact generateLoopR_err_iff rule rule.Config stream fuel [] 0 0 res rf
      (by omega) h
  · intro rule stream fuel
    exact generateLoop_eq_generateLoopR rule rule.Config stream fuel [] 0 0

/-- Witness for C3 on a concrete always-rejecting rule with an unsatisfiable
empty candidate. -/
theorem generate_rejection_ceiling_witness :
    Generate ⟨⟨1, []⟩, fun _ => false⟩ (fun _ => 'b') 11 =
      some GenResult.err :=
  generate_rejection_ceiling.1 ⟨⟨1, []⟩, fun _ => false⟩ (fun _ => 'b')
    (fun _ => rfl) (by decide) 11 (by decide)

/-! ## Claim C8 -/

/-- C8: in an iteration of the `Generate` loop (loop condition holding,
candidate not complete), a rejected append leaves the candidate exactly as it
was while incrementing the rejection counter by one; a length-overflow
restart empties the candidate while leaving the counter unchanged; and an
accepted in-bound append extends the candidate with the counter unchanged —
the counter accumulates only from `Valid` rejections and is never reset. -/
theorem generateStep_frame_effects (rule : Rule) (config : Configuration)
    (c : Char) (password : List Char) (rejections : ℕ)
    (hr : rejections < maxInvalidPasswordRejections)
    (hc : complete config password = false) :
    (rule.Valid (password ++ [c]) = false →
      generateStep rule config c password rejections =
        StepOut.cont password (rejections + 1)) ∧
      (rule.Valid (password ++ [c]) = true →
        maxPasswordLength config.Length < ((password ++ [c]).length : ℤ) →
        generateStep rule config c password rejections =
          StepOut.cont [] rejections) ∧
      (rule.Valid (password ++ [c]) = true →
        ((password ++ [c]).length : ℤ) ≤ maxPasswordLength config.Length →
        generateStep rule config c password rejections =
          StepOut.cont (password ++ [c]) rejections) := by
  refine ⟨?_, ?_, ?_⟩
  · intro hv
    simp [generateStep, hr, hc, hv]
  · intro hv hover
    have hover' : maxPasswordLength config.Length <
        (password.length : ℤ) + 1 := by simpa using hover
    simp [generateStep, hr, hc, hv, hover']
  · intro hv hle
    have hnot : ¬ maxPasswordLength config.Length <
        (password.length : ℤ) + 1 := by
      simp only [not_lt]
      simpa using hle
    simp [generateStep, hr, hc, hv, hnot]

/-- Witness for C8 at a concrete loop state. -/
theorem generateStep_frame_effects_witness :
    ((⟨⟨2, []⟩, fun _ => false⟩ : Rule).Valid ([] ++ ['x']) = false →
      generateStep ⟨⟨2, []⟩, fun _ => false⟩ ⟨2, []⟩ 'x' [] 0 =
        StepOut.cont [] 1) ∧
      ((⟨⟨2, []⟩, fun _ => false⟩ : Rule).Valid ([] ++ ['x']) = true →
        maxPasswordLength (⟨2, []⟩ : Configuration).Length <
          ((([] : List Char) ++ ['x']).length : ℤ) →
        generateStep ⟨⟨2, []⟩, fun _ => false⟩ ⟨2, []⟩ 'x' [] 0 =
          StepOut.cont [] 0) ∧
      ((⟨⟨2, []⟩, fun _ => false⟩ : Rule).Valid ([] ++ ['x']) = true →
        ((([] : List Char) ++ ['x']).length : ℤ) ≤
          maxPasswordLength (⟨2, []⟩ : Configuration).Length →
        generateStep ⟨⟨2, []⟩, fun _ => false⟩ ⟨2, []⟩ 'x' [] 0 =
          StepOut.cont ([] ++ ['x']) 0) :=
  generateStep_frame_effects ⟨⟨2, []⟩, fun _ => false⟩ ⟨2, []⟩ 'x' [] 0
    (by decide) (by decide)

/-! ## Claim C10 -/

/-- C10: for a rule whose configuration has a non-positive `Length` and
non-positive class minimums, `Generate` returns the empty password with no
error on the very first iteration: the empty candidate is already complete,
so the result holds for every validity predicate and every character stream
(no character is sampled and `Valid` is never consulted). -/
theorem generate_trivial_config_immediate (rule : Rule) (stream : ℕ → Char)
    (fuel : ℕ) (hL : rule.Config.Length ≤ 0)
    (hm : ∀ cls ∈ rule.Config.CharacterClasses, cls.Minimum ≤ 0)
    (hf : 1 ≤ fuel) :
    Generate rule stream fuel = some (GenResult.ok []) := by
  obtain ⟨n, rfl⟩ : ∃ n, fuel = n + 1 := ⟨fuel - 1, by omega⟩
  have hc : complete rule.Config [] = true := by
    rw [complete_eq_true_iff]
    refine ⟨by simpa using hL, ?_⟩
    intro cls hcls
    have hcls0 := hm cls hcls
    have hocc : occurrencesOfCharacters [] cls.Characters = 0 := by
      simp [occurrencesOfCharacters]
    omega
  have hs : generateStep rule rule.Config (stream 0) [] 0 =
      StepOut.ret (GenResult.ok []) := by
    simp [generateStep, hc, maxInvalidPasswordRejections]
  unfold Generate
  rw [generateLoop, hs]

/-- Witness for C10 at a concrete trivial configuration. -/
theorem generate_trivial_config_immediate_witness :
    Generate ⟨⟨0, [⟨['a'], 0⟩]⟩, fun _ => false⟩ (fun _ => 'z') 1 =
      some (GenResult.ok []) :=
  generate_trivial_config_immediate ⟨⟨0, [⟨['a'], 0⟩]⟩, fun _ => false⟩
    (fun _ => 'z') 1 (by decide) (by decide) (by decide)

/-! ## Helper lemmas about the weighted random set -/

/-- The Go accumulation `totalWeight += w.Weight` computes the sum of the
weights. -/
theorem foldl_add_weight :
    ∀ (entries : List WeightedRandomEntry) (t : ℚ),
      entries.foldl (fun s e => s + e.Weight) t =
        t + (entries.map (·.Weight)).sum
  | [], t => by simp
  | e :: es, t => by
    simp only [List.foldl_cons, List.map_cons, List.sum_cons]
    rw [foldl_add_weight es (t + e.Weight)]
    ring

/-- The total weight of a freshly constructed set is the sum of the entry
weights. -/
theorem totalWeight_eq_sum (entries : List WeightedRandomEntry) :
    (NewWeightedRandomSet entries).totalWeight =
      (entries.map (·.Weight)).sum := by
  show entries.foldl (fun s e => s + e.Weight) 0 = _
  rw [foldl_add_weight]
  ring

theorem rangesFrom_length :
    ∀ (es : List WeightedRandomEntry) (t : ℚ),
      (rangesFrom es t).length = es.length
  | [], _ => rfl
  | _ :: es, t => by simp [rangesFrom, rangesFrom_length es]

/-- Entry `i` is assigned the interval whose lower bound is the running total
of the previous weights and whose width is the entry's weight. -/
theorem rangesFrom_getElem? :
    ∀ (es : List WeightedRandomEntry) (t : ℚ) (i : ℕ) (_ : i < es.length),
      (rangesFrom es t)[i]? =
        some (t + ((es.take i).map (·.Weight)).sum,
          t + ((es.take i).map (·.Weight)).sum + (es.getD i default).Weight)
  | e :: es, t, 0, _ => by simp [rangesFrom]
  | e :: es, t, i + 1, h => by
    have h' : i < es.length := by simpa using h
    simp only [rangesFrom, List.getElem?_cons_succ, List.take_succ_cons,
      List.map_cons, List.sum_cons, List.getD_cons_succ]
    rw [rangesFrom_getElem? es (t + e.Weight) i h']
    simp only [Option.some.injEq, Prod.mk.injEq]
    constructor
    · ring
    · ring

/-- With non-negative weights, every interval built from base `t` sits at or
above `t` and has its lower bound at most its upper bound. -/
theorem rangesFrom_bounds :
    ∀ (es : List WeightedRandomEntry) (t : ℚ),
      (∀ e ∈ es, 0 ≤ e.Weight) →
      ∀ iv ∈ rangesFrom es t, t ≤ iv.1 ∧ iv.1 ≤ iv.2
  | [], t, _, iv, hiv => by simp [rangesFrom] at hiv
  | e :: es, t, hw, iv, hiv => by
    simp only [rangesFrom, List.mem_cons] at hiv
    rcases hiv with rfl | hiv
    · exact ⟨le_refl t, by
        have := hw e (List.mem_cons_self e es)
        simp only
        linarith⟩
    · have hrec := rangesFrom_bounds es (t + e.Weight)
        (fun e' he' => hw e' (List.mem_cons_of_mem e he')) iv hiv
      have := hw e (List.mem_cons_self e es)
      exact ⟨by linarith [hrec.1], hrec.2⟩

/-- With non-negative weights, the constructed intervals are sorted: each
interval ends no later than any later interval begins (hence they are
pairwise disjoint). -/
theorem rangesFrom_pairwise :
    ∀ (es : List WeightedRandomEntry) (t : ℚ),
      (∀ e ∈ es, 0 ≤ e.Weight) →
      (rangesFrom es t).Pairwise fun a b => a.2 ≤ b.1
  | [], t, _ => by simp [rangesFrom]
  | e :: es, t, hw => by
    simp only [rangesFrom, List.pairwise_cons]
    constructor
    · intro iv hiv
      exact (rangesFrom_bounds es (t + e.Weight)
        (fun e' he' => hw e' (List.mem_cons_of_mem e he')) iv hiv).1
    · exact rangesFrom_pairwise es (t + e.Weight)
        (fun e' he' => hw e' (List.mem_cons_of_mem e he'))

/-- A point below the base of the construction is contained in no interval. -/
theorem includingAux_before :
    ∀ (es : List WeightedRandomEntry) (t x : ℚ) (i0 : ℕ),
      (∀ e ∈ es, 0 ≤ e.Weight) → x < t →
      includingAux (rangesFrom es t) x i0 = []
  | [], _, _, _, _, _ => rfl
  | e :: es, t, x, i0, hw, hx => by
    have hnc : ¬ intervalContains (t, t + e.Weight) x := by
      intro hcon
      exact absurd hcon.1 (not_le.mpr hx)
    simp only [rangesFrom, includingAux, if_neg hnc]
    have := hw e (List.mem_cons_self e es)
    exact includingAux_before es (t + e.Weight) x (i0 + 1)
      (fun e' he' => hw e' (List.mem_cons_of_mem e he')) (by linarith)

/-- A point at or above the end of the construction is contained in no
interval. -/
theorem includingAux_after :
    ∀ (es : List WeightedRandomEntry) (t x : ℚ) (i0 : ℕ),
      (∀ e ∈ es, 0 ≤ e.Weight) →
      t + (es.map (·.Weight)).sum ≤ x →
      includingAux (rangesFrom es t) x i0 = []
  | [], _, _, _, _, _ => rfl
  | e :: es, t, x, i0, hw, hx => by
    have hsum : 0 ≤ (es.map (·.Weight)).sum := by
      apply List.sum_nonneg
      intro w hwmem
      obtain ⟨e', he', rfl⟩ := List.mem_map.mp hwmem
      exact hw e' (List.mem_cons_of_mem e he')
    simp only [List.map_cons, List.sum_cons] at hx
    have hnc : ¬ intervalContains (t, t + e.Weight) x := by
      intro hcon
      have := hcon.2
      simp only at this
      linarith
    simp only [rangesFrom, includingAux, if_neg hnc]
    exact includingAux_after es (t + e.Weight) x (i0 + 1)
      (fun e' he' => hw e' (List.mem_cons_of_mem e he')) (by linarith)

/-- For a point inside the covered range, the query returns exactly one
index: that of the unique interval containing the point. -/
theorem includingAux_singleton :
    ∀ (es : List WeightedRandomEntry) (t x : ℚ) (i0 : ℕ),
      (∀ e ∈ es, 0 ≤ e.Weight) → t ≤ x →
      x < t + (es.map (·.Weight)).sum →
      ∃ k, k < es.length ∧
        includingAux (rangesFrom es t) x i0 = [i0 + k] ∧
        intervalContains ((rangesFrom es t).getD k (0, 0)) x
  | [], t, x, i0, _, hle, hlt => by
    simp only [List.map_nil, List.sum_nil, add_zero] at hlt
    exact absurd hle (not_le.mpr hlt)
  | e :: es, t, x, i0, hw, hle, hlt => by
    by_cases hx : x < t + e.Weight
    · have hc : intervalContains (t, t + e.Weight) x := ⟨hle, hx⟩
      refine ⟨0, by simp, ?_, by simpa [rangesFrom] using hc⟩
      simp only [rangesFrom, includingAux, if_pos hc, add_zero,
        List.cons.injEq, true_and]
      exact includingAux_before es (t + e.Weight) x (i0 + 1)
        (fun e' he' => hw e' (List.mem_cons_of_mem e he')) hx
    · have hnc : ¬ intervalContains (t, t + e.Weight) x := by
        intro hcon
        exact absurd hcon.2 hx
      have hlt' : x < t + e.Weight + (es.map (·.Weight)).sum := by
        simp only [List.map_cons, List.sum_cons] at hlt
        linarith
      obtain ⟨k, hk, heq, hcont⟩ := includingAux_singleton es (t + e.Weight) x
        (i0 + 1) (fun e' he' => hw e' (List.mem_cons_of_mem e he'))
        (not_lt.mp hx) hlt'
      refine ⟨k + 1, by simpa using Nat.succ_lt_succ hk, ?_, ?_⟩
      · simp only [rangesFrom, includingAux, if_neg hnc, heq]
        congr 1
        omega
      · simpa [rangesFrom] using hcont

/-! ## Claim C4 -/

/-- C4 (code bug): `Next` does not defensively handle the boundary draw.
At `x = totalWeight` (here the set built from a single entry of weight `1`
queried at the scaled draw `1`), no half-open interval of the index contains
`x`, `Including` returns the empty list, and the Go expression
`rs.tree.Including(value)[0]` indexes an empty slice — a runtime panic,
modelled by `Next` returning `none` — instead of returning the last
interval's value `'a'` as the claim requires.  For an interior draw such as
`1/2` the unique containing interval's value is returned as claimed. -/
theorem next_boundary_failure :
    Including (NewWeightedRandomSet [⟨'a', 1⟩]).intervals 1 = [] ∧
      (NewWeightedRandomSet [⟨'a', 1⟩]).Next 1 = none ∧
      (NewWeightedRandomSet [⟨'a', 1⟩]).Next (1 / 2) = some 'a' ∧
      (NewWeightedRandomSet [⟨'a', 1⟩]).totalWeight = 1 ∧
      (NewWeightedRandomSet [⟨'a', 1⟩]).characters = ['a'] := by
  refine ⟨?_, ?_, ?_, ?_, ?_⟩ <;>
    norm_num [WeightedRandomSet.Next, NewWeightedRandomSet, rangesFrom,
      Including, includingAux, intervalContains]

/-! ## Claim C7 -/

/-- C7: for entries with non-negative weights, `NewWeightedRandomSet` assigns
entry `i` the half-open interval `[S_i, S_i + w_i)` where `S_i` is the sum of
the preceding weights; the intervals are sorted end-to-start (hence pairwise
disjoint and contiguous); they cover `[0, totalWeight)`: every such point
lies in some stored interval; and `totalWeight` is the sum of all weights.
(The structure is immutable by construction in this embedding: `Next` is a
pure function of the set and the draw and returns no modified set.) -/
theorem weighted_set_interval_structure (entries : List WeightedRandomEntry)
    (hw : ∀ e ∈ entries, 0 ≤ e.Weight) :
    (∀ i : ℕ, i < entries.length →
      (NewWeightedRandomSet entries).intervals[i]? =
        some (((entries.take i).map (·.Weight)).sum,
          ((entries.take i).map (·.Weight)).sum +
            (entries.getD i default).Weight)) ∧
      ((NewWeightedRandomSet entries).intervals.Pairwise
        fun a b => a.2 ≤ b.1) ∧
      (∀ x : ℚ, 0 ≤ x → x < (NewWeightedRandomSet entries).totalWeight →
        ∃ i : ℕ, i < entries.length ∧
          Including (NewWeightedRandomSet entries).intervals x = [i] ∧
          intervalContains
            ((NewWeightedRandomSet entries).intervals.getD i (0, 0)) x) ∧
      (NewWeightedRandomSet entries).totalWeight =
        (entries.map (·.Weight)).sum := by
  refine ⟨?_, ?_, ?_, totalWeight_eq_sum entries⟩
  · intro i hi
    have := rangesFrom_getElem? entries 0 i hi
    simpa using this
  · exact rangesFrom_pairwise entries 0 hw
  · intro x hx0 hxlt
    rw [totalWeight_eq_sum] at hxlt
    obtain ⟨k, hk, heq, hcont⟩ := includingAux_singleton entries 0 x 0 hw hx0
      (by simpa using hxlt)
    exact ⟨k, hk, by simpa [Including] using heq, hcont⟩

/-- Witness for C7 at a concrete entry list. -/
theorem weighted_set_interval_structure_witness :
    (∀ e ∈ [(⟨'a', 1⟩ : WeightedRandomEntry), ⟨'b', 2⟩], 0 ≤ e.Weight) ∧
      ((∀ i : ℕ, i < ([(⟨'a', 1⟩ : WeightedRandomEntry), ⟨'b', 2⟩]).length →
        (NewWeightedRandomSet [⟨'a', 1⟩, ⟨'b', 2⟩]).intervals[i]? =
          some (((([(⟨'a', 1⟩ : WeightedRandomEntry), ⟨'b', 2⟩]).take i).map
              (·.Weight)).sum,
            ((([(⟨'a', 1⟩ : WeightedRandomEntry), ⟨'b', 2⟩]).take i).map
                (·.Weight)).sum +
              (([(⟨'a', 1⟩ : WeightedRandomEntry), ⟨'b', 2⟩]).getD i
                default).Weight)) ∧
        ((NewWeightedRandomSet [⟨'a', 1⟩, ⟨'b', 2⟩]).intervals.Pairwise
          fun a b => a.2 ≤ b.1) ∧
        (∀ x : ℚ, 0 ≤ x →
          x < (NewWeightedRandomSet [⟨'a', 1⟩, ⟨'b', 2⟩]).totalWeight →
          ∃ i : ℕ, i < ([(⟨'a', 1⟩ : WeightedRandomEntry), ⟨'b', 2⟩]).length ∧
            Including (NewWeightedRandomSet [⟨'a', 1⟩, ⟨'b', 2⟩]).intervals x =
              [i] ∧
            intervalContains
              ((NewWeightedRandomSet [⟨'a', 1⟩, ⟨'b', 2⟩]).intervals.getD i
                (0, 0)) x) ∧
        (NewWeightedRandomSet [⟨'a', 1⟩, ⟨'b', 2⟩]).totalWeight =
          (([(⟨'a', 1⟩ : WeightedRandomEntry), ⟨'b', 2⟩]).map
            (·.Weight)).sum) :=
  ⟨by intro e he; fin_cases he <;> norm_num,
    weighted_set_interval_structure [⟨'a', 1⟩, ⟨'b', 2⟩]
      (by intro e he; fin_cases he <;> norm_num)⟩

/-! ## Helper lemmas about character-source construction -/

/-- The Go accumulation `totalCount += characterClass.Minimum` computes the
sum of the class minimums. -/
theorem foldl_add_minimum :
    ∀ (l : List CharacterClassConfiguration) (t : ℤ),
      l.foldl (fun s cls => s + cls.Minimum) t = t + (l.map (·.Minimum)).sum
  | [], t => by simp
  | cls :: l, t => by
    simp only [List.foldl_cons, List.map_cons, List.sum_cons]
    rw [foldl_add_minimum l (t + cls.Minimum)]
    ring

theorem totalMinimumCount_eq_sum (config : Configuration) :
    totalMinimumCount config =
      (config.CharacterClasses.map (·.Minimum)).sum := by
  unfold totalMinimumCount
  rw [foldl_add_minimum]
  ring

/-- `addCharactersToWeightedRandomSet` appends the per-character entries of
the class (or nothing, when the class probability is not positive). -/
theorem addCharacters_eq_append (entries : List WeightedRandomEntry)
    (characterClass : List Char) (probability : ℚ) :
    addCharactersToWeightedRandomSet entries characterClass probability =
      entries ++
        (if 0 < probability then
          characterClass.map fun v =>
            ⟨v, probability / (characterClass.length : ℚ)⟩
        else []) := by
  unfold addCharactersToWeightedRandomSet
  split_ifs <;> simp

/-- The `buildCharacterSource` entry loop flattens to one block of entries
per class. -/
theorem foldl_addCharacters_eq :
    ∀ (l : List CharacterClassConfiguration)
      (acc : List WeightedRandomEntry) (T : ℚ),
      l.foldl (fun entries cls =>
        addCharactersToWeightedRandomSet entries cls.Characters
          ((cls.Minimum : ℚ) / T)) acc =
      acc ++ l.flatMap fun cls =>
        if 0 < (cls.Minimum : ℚ) / T then
          cls.Characters.map fun v =>
            ⟨v, ((cls.Minimum : ℚ) / T) / (cls.Characters.length : ℚ)⟩
        else []
  | [], acc, T => by simp
  | cls :: l, acc, T => by
    simp only [List.foldl_cons, List.flatMap_cons]
    rw [foldl_addCharacters_eq l _ T, addCharacters_eq_append,
      List.append_assoc]

/-- `buildEntries` as a flat list: one block per class, gated on a positive
class probability. -/
theorem buildEntries_eq_flatMap (config : Configuration) :
    buildEntries config =
      config.CharacterClasses.flatMap fun cls =>
        if 0 < (cls.Minimum : ℚ) / (totalMinimumCount config : ℚ) then
          cls.Characters.map fun v =>
            ⟨v, ((cls.Minimum : ℚ) / (totalMinimumCount config : ℚ)) /
              (cls.Characters.length : ℚ)⟩
        else [] := by
  unfold buildEntries
  rw [foldl_addCharacters_eq]
  simp

/-! ## Claim C5 -/

/-- C5 counterexample: a malformed configuration whose only class has
`Minimum = 0` (total minimum zero, hence zero total weight) does not make
construction fail: `NewGenerator` returns a generator built from an empty
entry list (in Go, `Minimum/totalCount` is `0.0/0.0 = NaN`, which fails the
`probability > 0` guard exactly as `0/0 = 0` does here), the resulting set
has zero total weight, and the failure surfaces only later, in sampling:
`Next` finds no containing interval and faults. -/
theorem construction_accepts_malformed_counterexample :
    NewGenerator ⟨⟨8, [⟨['a', 'b'], 0⟩]⟩, fun _ => true⟩ =
        ⟨buildCharacterSource ⟨8, [⟨['a', 'b'], 0⟩]⟩,
          ⟨⟨8, [⟨['a', 'b'], 0⟩]⟩, fun _ => true⟩⟩ ∧
      buildEntries ⟨8, [⟨['a', 'b'], 0⟩]⟩ = [] ∧
      (buildCharacterSource ⟨8, [⟨['a', 'b'], 0⟩]⟩).totalWeight = 0 ∧
      (buildCharacterSource ⟨8, [⟨['a', 'b'], 0⟩]⟩).Next 0 = none := by
  refine ⟨rfl, ?_, ?_, ?_⟩ <;>
    norm_num [NewGenerator, buildCharacterSource, buildEntries,
      addCharactersToWeightedRandomSet, totalMinimumCount,
      NewWeightedRandomSet, WeightedRandomSet.Next, Including, includingAux,
      rangesFrom, intervalContains]

/-- C5 (amended): no construction-time validation exists.  For every
configuration all of whose class minimums are zero, `buildEntries` (hence
the character source built by `NewGenerator`) silently succeeds with an empty entry
list and zero total weight, and the failure surfaces only during sampling:
`Next` matches no interval and faults for every draw. -/
theorem construction_total_failure_at_sampling (config : Configuration)
    (hzero : ∀ cls ∈ config.CharacterClasses, cls.Minimum = 0) :
    buildEntries config = [] ∧
      (buildCharacterSource config).totalWeight = 0 ∧
      (buildCharacterSource config).intervals = [] ∧
      ∀ x : ℚ, (buildCharacterSource config).Next x = none := by
  have hbe : buildEntries config = [] := by
    rw [buildEntries_eq_flatMap]
    apply List.flatMap_eq_nil_iff.mpr
    intro cls hcls
    rw [hzero cls hcls]
    norm_num
  refine ⟨hbe, ?_, ?_, ?_⟩
  · simp [buildCharacterSource, hbe, NewWeightedRandomSet]
  · simp [buildCharacterSource, hbe, NewWeightedRandomSet, rangesFrom]
  · intro x
    simp [buildCharacterSource, hbe, NewWeightedRandomSet,
      WeightedRandomSet.Next, Including, includingAux, rangesFrom]

/-- Witness for C5 at a concrete all-zero-minimum configuration. -/
theorem construction_total_failure_at_sampling_witness :
    buildEntries ⟨5, [⟨['x'], 0⟩, ⟨['y', 'z'], 0⟩]⟩ = [] ∧
      (buildCharacterSource ⟨5, [⟨['x'], 0⟩, ⟨['y', 'z'], 0⟩]⟩).totalWeight =
        0 ∧
      (buildCharacterSource ⟨5, [⟨['x'], 0⟩, ⟨['y', 'z'], 0⟩]⟩).intervals =
        [] ∧
      ∀ x : ℚ,
        (buildCharacterSource ⟨5, [⟨['x'], 0⟩, ⟨['y', 'z'], 0⟩]⟩).Next x =
          none :=
  construction_total_failure_at_sampling ⟨5, [⟨['x'], 0⟩, ⟨['y', 'z'], 0⟩]⟩
    (by intro cls hcls; fin_cases hcls <;> rfl)

/-! ## Claim C6 -/

/-- C6 counterexample: with a duplicated class string the per-character
weight divides by the string length counting duplicates, not by the number
of distinct characters.  For the class `"aa"` with minimum 1 (total minimum
1) the code produces two entries of weight `(1/1)/2 = 1/2` — one per
character position — not one entry of weight `(1/1)/1 = 1` for the single
distinct character `'a'` as the claim prescribes. -/
theorem buildEntries_duplicates_counterexample :
    buildEntries ⟨1, [⟨['a', 'a'], 1⟩]⟩ = [⟨'a', 1 / 2⟩, ⟨'a', 1 / 2⟩] ∧
      buildEntries ⟨1, [⟨['a', 'a'], 1⟩]⟩ ≠ [⟨'a', 1⟩] := by
  constructor <;>
    norm_num [buildEntries, addCharactersToWeightedRandomSet,
      totalMinimumCount]

/-- C6 (amended): for every configuration with positive total minimum,
`buildEntries` produces exactly one entry per character *position* of each
class with positive `Minimum` (a class with non-positive `Minimum`
contributes no entries), each entry having weight
`(Minimum / total_minimum) / k` where `k` is the *length* of the class's
character string, duplicates included — not the number of distinct
characters. -/
theorem buildEntries_characterization (config : Configuration)
    (h : 0 < totalMinimumCount config) :
    buildEntries config =
      config.CharacterClasses.flatMap fun cls =>
        if 0 < cls.Minimum then
          cls.Characters.map fun v =>
            ⟨v, ((cls.Minimum : ℚ) / (totalMinimumCount config : ℚ)) /
              (cls.Characters.length : ℚ)⟩
        else [] := by
  rw [buildEntries_eq_flatMap]
  congr 1
  funext cls
  have hT : (0 : ℚ) < (totalMinimumCount config : ℚ) := by exact_mod_cast h
  by_cases hm : 0 < cls.Minimum
  · rw [if_pos hm, if_pos (div_pos (by exact_mod_cast hm) hT)]
  · rw [if_neg hm, if_neg ?_]
    have hm' : (cls.Minimum : ℚ) ≤ 0 := by exact_mod_cast not_lt.mp hm
    exact not_lt.mpr (div_nonpos_of_nonpos_of_nonneg hm' hT.le)

/-- Witness for C6 at a concrete configuration with positive total
minimum. -/
theorem buildEntries_characterization_witness :
    (0 : ℤ) < totalMinimumCount ⟨1, [⟨['a', 'b'], 1⟩, ⟨['c'], 0⟩]⟩ ∧
      buildEntries ⟨1, [⟨['a', 'b'], 1⟩, ⟨['c'], 0⟩]⟩ =
        ([⟨['a', 'b'], 1⟩, ⟨['c'], 0⟩] :
            List CharacterClassConfiguration).flatMap fun cls =>
          if 0 < cls.Minimum then
            cls.Characters.map fun v =>
              ⟨v, ((cls.Minimum : ℚ) /
                  (totalMinimumCount ⟨1, [⟨['a', 'b'], 1⟩, ⟨['c'], 0⟩]⟩ :
                    ℚ)) /
                (cls.Characters.length : ℚ)⟩
          else [] :=
  ⟨by decide, buildEntries_characterization ⟨1, [⟨['a', 'b'], 1⟩, ⟨['c'], 0⟩]⟩
    (by decide)⟩

/-! ## Claim C9 -/

/-- C9 counterexample: duplicates inside a class string are *not*
meaningless.  `occurrencesOfCharacters` iterates over the class string with
multiplicity, so against the password `"a"` the class `"aa"` counts 2 while
its deduplicated version `"a"` counts 1; consequently the completion check
differs between the two: with `Minimum = 2` the password `"a"` is complete
for the class `"aa"` but not for the class `"a"`. -/
theorem occurrences_dedup_counterexample :
    occurrencesOfCharacters ['a'] ['a', 'a'] = 2 ∧
      occurrencesOfCharacters ['a'] (['a', 'a'].dedup) = 1 ∧
      complete ⟨1, [⟨['a', 'a'], 2⟩]⟩ ['a'] = true ∧
      complete ⟨1, [⟨['a'], 2⟩]⟩ ['a'] = false := by
  refine ⟨by decide, by decide, by decide, by decide⟩

/-- C9 (amended): duplicates multiply contributions instead of being
meaningless.  (a) The occurrence count used by the completion check weights
each distinct character by its multiplicity in the class string:
`occurrencesOfCharacters password cls = Σ_{c ∈ dedup(cls)}
count(cls, c) * count(password, c)`, so it is invariant under deduplication
only when no duplicated class character occurs in the password.  (b) Only
the class's aggregate probability mass is deduplication-invariant: for a
positive class probability `p` and a non-empty class string, the entry
weights built by `addCharactersToWeightedRandomSet` sum to `p` both for the
original string and for its deduplicated version (while the per-character
weights themselves change whenever the string mixes duplicated and
non-duplicated characters). -/
theorem duplicates_multiplicity_characterization :
    (∀ password characterClass : List Char,
      occurrencesOfCharacters password characterClass =
        ∑ c ∈ characterClass.toFinset,
          characterClass.count c * password.count c) ∧
      (∀ (characterClass : List Char) (p : ℚ),
        characterClass ≠ [] → 0 < p →
        ((addCharactersToWeightedRandomSet [] characterClass p).map
            (·.Weight)).sum = p ∧
          ((addCharactersToWeightedRandomSet [] characterClass.dedup p).map
              (·.Weight)).sum = p) := by
  constructor
  · intro password characterClass
    unfold occurrencesOfCharacters
    rw [Finset.sum_list_map_count]
    simp [smul_eq_mul]
  · intro characterClass p hne hp
    have key : ∀ cs : List Char, cs ≠ [] →
        ((addCharactersToWeightedRandomSet [] cs p).map (·.Weight)).sum =
          p := by
      intro cs hcs
      rw [addCharacters_eq_append, if_pos hp]
      have hlen : ((cs.length : ℚ)) ≠ 0 := by
        have : cs.length ≠ 0 := by
          intro h0
          exact hcs (List.length_eq_zero.mp h0)
        exact_mod_cast this
      simp only [List.nil_append, List.map_map]
      have : ((cs.map fun v =>
          (⟨v, p / (cs.length : ℚ)⟩ : WeightedRandomEntry)).map
            (·.Weight)) = List.replicate cs.length (p / (cs.length : ℚ)) := by
        rw [List.map_map]
        exact List.map_const' cs (p / (cs.length : ℚ))
      rw [List.map_map] at this
      rw [this, List.sum_replicate, nsmul_eq_mul]
      field_simp
    refine ⟨key characterClass hne, key characterClass.dedup ?_⟩
    intro hd
    exact hne ((List.dedup_eq_nil characterClass).mp hd)

/-- Witness for C9 at a concrete duplicated class string. -/
theorem duplicates_multiplicity_characterization_witness :
    (occurrencesOfCharacters ['a'] ['a', 'a', 'b'] =
        ∑ c ∈ (['a', 'a', 'b'] : List Char).toFinset,
          (['a', 'a', 'b'] : List Char).count c *
            (['a'] : List Char).count c) ∧
      (((addCharactersToWeightedRandomSet [] ['a', 'a', 'b'] (1 / 2)).map
          (·.Weight)).sum = 1 / 2 ∧
        ((addCharactersToWeightedRandomSet []
              ((['a', 'a', 'b'] : List Char).dedup) (1 / 2)).map
            (·.Weight)).sum = 1 / 2) :=
  ⟨duplicates_multiplicity_characterization.1 ['a'] ['a', 'a', 'b'],
    duplicates_multiplicity_characterization.2 ['a', 'a', 'b'] (1 / 2)
      (by simp) (by norm_num)⟩

example : Generate ⟨⟨2, [⟨['a'], 2⟩]⟩, fun _ => true⟩ (fun _ => 'a') 5 =
    some (GenResult.ok ['a', 'a']) := by decide

example : Generate ⟨⟨0, []⟩, fun _ => false⟩ (fun _ => 'a') 1 =
    some (GenResult.ok []) := by decide

example : Generate ⟨⟨1, []⟩, fun _ => false⟩ (fun _ => 'b') 11 =
    some GenResult.err := by decide

example : (NewWeightedRandomSet [⟨'a', 1⟩]).Next 1 = none := by
  norm_num [WeightedRandomSet.Next, NewWeightedRandomSet, rangesFrom, Including,
    includingAux, intervalContains]

example : (NewWeightedRandomSet [⟨'a', 1⟩]).Next (1/2) = some 'a' := by
  norm_num [WeightedRandomSet.Next, NewWeightedRandomSet, rangesFrom, Including,
    includingAux, intervalContains]

example : occurrencesOfCharacters ['a'] ['a', 'a'] = 2 := by decide

example : buildEntries ⟨1, [⟨['a', 'a'], 1⟩]⟩ = [⟨'a', 1/2⟩, ⟨'a', 1/2⟩] := by
  norm_num [buildEntries, addCharactersToWeightedRandomSet, totalMinimumCount]

end CanHazPassword
